import Mathlib

/-!
Verification of the Supreme Court verdict downloader (`app.py`).

The program is embedded shallowly: pure string manipulation is translated
function by function from the source (and from the CPython semantics of the
library calls it makes), while network I/O is abstracted by oracles giving
the outcome of each HTTP request.  All definitions are executable.
-/

set_option autoImplicit false

namespace SupremeCourtDownloader

/-! ### Python string primitives, modelled over `List Char` -/

/-- Model of splitting a character list at every occurrence of `c`
(Python `str.split(sep)` with a one-character separator, which is how
`urllib.parse.parse_qsl` tokenizes the query string). -/
def splitOnChar (c : Char) : List Char → List (List Char)
  | [] => [[]]
  | x :: xs =>
    if x = c then [] :: splitOnChar c xs
    else
      match splitOnChar c xs with
      | t :: ts => (x :: t) :: ts
      | [] => [[x]]

/-- The part of `l` strictly after the first occurrence of `c`
(Python `l.split(c, 1)[1]`), or `none` when `c` does not occur. -/
def afterFirstChar (c : Char) : List Char → Option (List Char)
  | [] => none
  | x :: xs => if x = c then some xs else afterFirstChar c xs

/-- The part of `l` strictly before the first occurrence of `c`
(all of `l` when `c` does not occur). -/
def beforeFirstChar (c : Char) : List Char → List Char
  | [] => []
  | x :: xs => if x = c then [] else x :: beforeFirstChar c xs

def isHexDigit (c : Char) : Bool :=
  c.isDigit || ('a' ≤ c && c ≤ 'f') || ('A' ≤ c && c ≤ 'F')

def hexVal (c : Char) : Nat :=
  if c.isDigit then c.toNat - '0'.toNat
  else if 'a' ≤ c && c ≤ 'f' then c.toNat - 'a'.toNat + 10
  else c.toNat - 'A'.toNat + 10

/-- Model of `urllib.parse.unquote_plus` (applied by `parse_qsl` to every
name and value): `+` becomes a space and each valid `%XY` escape (two hex
digits) decodes to the byte it denotes; an invalid escape stays literal.
CPython additionally reassembles consecutive decoded bytes as UTF-8
(invalid sequences become replacement characters); that recombination is
not modelled: it never maps a non-empty byte run to an empty string, which
is the only property of the decoding the program's behaviour below depends
on, and on inputs free of `%` and `+` both the model and CPython are the
identity. -/
def unquote_plus : List Char → List Char
  | [] => []
  | '%' :: a :: b :: rest =>
    if isHexDigit a && isHexDigit b then
      Char.ofNat (16 * hexVal a + hexVal b) :: unquote_plus rest
    else '%' :: unquote_plus (a :: b :: rest)
  | c :: rest => (if c = '+' then ' ' else c) :: unquote_plus rest

/-- Model of one field of `urllib.parse.parse_qsl` with the default
`keep_blank_values=False`: an empty field, a field with no `=`, and a field
whose value is empty are all dropped; otherwise the field is split at its
first `=` and the name and value are percent-decoded. -/
def parseQsToken (t : List Char) : Option (List Char × List Char) :=
  if t = [] then none
  else
    match afterFirstChar '=' t with
    | none => none
    | some v =>
      if v = [] then none
      else some (unquote_plus (beforeFirstChar '=' t), unquote_plus v)

/-- Model of `urllib.parse.parse_qsl(qs)`: split on `&`, parse each field. -/
def parse_qsl (qs : List Char) : List (List Char × List Char) :=
  (splitOnChar '&' qs).filterMap parseQsToken

/-- Model of `parse_qs(qs)[key][0]`: the first value bound to `key`, or
`none` when no field carries `key` (a `KeyError` in the source).  `parse_qs`
groups the `parse_qsl` pairs by name preserving order, so a key is present
exactly when at least one pair carries it and its value list is then
non-empty, making the `[0]` index itself infallible. -/
def qsFirst (key : List Char) (qs : List Char) : Option (List Char) :=
  ((parse_qsl qs).find? (fun p => p.1 == key)).map (fun p => p.2)

/-- Model of `urlparse(url).query` for the URLs this program builds: the
fragment is everything after the first `#`, and the query is everything
after the first `?` of what remains (empty when there is no `?`).  The
scheme/netloc parsing steps of `urlsplit` cannot affect the query of these
URLs (their scheme and host contain no `#` or `?`). -/
def urlparseQuery (url : List Char) : List Char :=
  match afterFirstChar '?' (beforeFirstChar '#' url) with
  | none => []
  | some q => q

/-- Model of `str.strip(chars)`: remove the characters of the set `chars`
from both ends. -/
def pyStrip (chars : List Char) (s : List Char) : List Char :=
  (((s.dropWhile fun c => chars.contains c).reverse.dropWhile
      fun c => chars.contains c).reverse)

def isPySpace (c : Char) : Bool :=
  c = ' ' || c = '\t' || c = '\n' || c = '\r' || c = '\x0b' || c = '\x0c'

/-- Digit run continuation for `pyInt`: decimal digits in which single
underscores may appear between digits (the CPython grammar for `int(str)`). -/
def digitsGo (acc : Nat) : List Char → Option Nat
  | [] => some acc
  | c :: rest =>
    if c.isDigit then digitsGo (10 * acc + (c.toNat - '0'.toNat)) rest
    else if c = '_' then
      match rest with
      | [] => none
      | d :: rest2 =>
        if d.isDigit then digitsGo (10 * acc + (d.toNat - '0'.toNat)) rest2
        else none
    else none

/-- The value of a decimal digit list (most significant first), accumulated
onto `acc` — the number computed by `digitsGo` on an underscore-free run. -/
def natOfDigitsAcc (acc : Nat) (l : List Char) : Nat :=
  l.foldl (fun a c => 10 * a + (c.toNat - '0'.toNat)) acc

/-- A non-empty digit run (with optional single underscores between digits)
parsed to its value; `none` when the list is empty, does not start with a
digit, or violates the underscore rule. -/
def digitsValue : List Char → Option Nat
  | [] => none
  | c :: rest =>
    if c.isDigit then digitsGo (c.toNat - '0'.toNat) rest else none

/-- Model of CPython `int(str)`: optional surrounding whitespace, an optional
sign, then decimal digits with optional single underscores between digits;
`none` exactly when CPython raises `ValueError`.  (CPython also strips some
non-ASCII Unicode whitespace; only ASCII whitespace is modelled — the
program's inputs to `int` never contain the difference.) -/
def pyInt (s : List Char) : Option Int :=
  let t := ((s.dropWhile isPySpace).reverse.dropWhile isPySpace).reverse
  match t with
  | [] => none
  | c :: rest =>
    if c = '+' then (digitsValue rest).map Int.ofNat
    else if c = '-' then (digitsValue rest).map (fun n => -(Int.ofNat n : Int))
    else (digitsValue (c :: rest)).map Int.ofNat

/-! ### Calendar arithmetic for `datetime.utcfromtimestamp` -/

/-- Convert a count of days since 1970-01-01 to a civil `(year, month, day)`
triple in the proleptic Gregorian calendar — the date computed by
`datetime.utcfromtimestamp(...)`.  All intermediate quotients are of
nonnegative values, so floor division is used throughout. -/
def civilFromDays (z0 : Int) : Int × Int × Int :=
  let z := z0 + 719468
  let era := Int.fdiv z 146097
  let doe := z - era * 146097
  let yoe := Int.fdiv (doe - Int.fdiv doe 1460 + Int.fdiv doe 36524 - Int.fdiv doe 146096) 365
  let y := yoe + era * 400
  let doy := doe - (365 * yoe + Int.fdiv yoe 4 - Int.fdiv yoe 100)
  let mp := Int.fdiv (5 * doy + 2) 153
  let d := doy - Int.fdiv (153 * mp + 2) 5 + 1
  let m := mp + (if mp < 10 then 3 else -9)
  (y + (if m ≤ 2 then 1 else 0), m, d)

/-- Day number (relative to 1970-01-01) of `0001-01-01`, the smallest date
representable by `datetime`. -/
def minDay : Int := -719162

/-- Day number (relative to 1970-01-01) of `9999-12-31`, the largest date
representable by `datetime`. -/
def maxDay : Int := 2932896

/-- Zero-pad the decimal representation of `n` to width `w`
(Python `f"{n:0wd}"` for nonnegative `n`). -/
def pad (w : Nat) (n : Nat) : String :=
  let s := toString n
  String.mk (List.replicate (w - s.length) '0') ++ s

/-- The `YYYY-MM-DD` rendering of the civil date of the UTC day containing
millisecond timestamp `ms` (day number: floor of `ms / 1000 / 86400`).
Years below 1000 are zero-padded to four digits (CPython's `%Y` padding
there is platform dependent; such years arise only from large negative
timestamps). -/
def isoDateOfMs (ms : Int) : String :=
  let c := civilFromDays (Int.fdiv ms 86400000)
  pad 4 c.1.toNat ++ "-" ++ pad 2 c.2.1.toNat ++ "-" ++ pad 2 c.2.2.toNat

/-- Model of `datetime.utcfromtimestamp(ms / 1000).strftime("%Y-%m-%d")`,
including the `ValueError`/`OverflowError` raised (and caught by the caller)
when the timestamp falls outside `datetime`'s year range 1..9999.  The day
number is taken as the floor of the true quotient `ms / 1000 / 86400`: the
float rounding in CPython's true division `timestamp_ms / 1000` cannot move
a timestamp across a day boundary within the representable range (the error
is below 10⁻⁴ seconds there while distinct millisecond timestamps are at
least 10⁻³ seconds from a boundary they do not lie on). -/
def utcDateOfMs (ms : Int) : Option String :=
  let day := Int.fdiv ms 86400000
  if day < minDay ∨ day > maxDay then none
  else some (isoDateOfMs ms)

/-! ### The downloader itself -/

/-- The characters of the Python string `"/Date()"`; `str.strip` treats its
argument as a character set. -/
def dotnetStripChars : List Char := ['/', 'D', 'a', 't', 'e', '(', ')']

/-- `SupremeCourtDownloader.parse_dotnet_date`: a falsy input (`None` or the
empty string) yields `None`; otherwise the characters of `"/Date()"` are
stripped from both ends, the remainder is parsed by `int` as a millisecond
timestamp and rendered as `YYYY-MM-DD`; any exception (`ValueError` from
`int`, range error from `utcfromtimestamp`) is caught and yields `None`. -/
def parse_dotnet_date : Option String → Option String
  | none => none
  | some v =>
    if v = "" then none
    else
      match pyInt (pyStrip dotnetStripChars v.data) with
      | none => none
      | some ms => utcDateOfMs ms

/-- Python `str.lower()`, modelled as ASCII lowercasing (the program's
claims constrain it only as "lowercased"). -/
def pyLower (s : String) : String := String.mk (s.data.map Char.toLower)

/-- The part of `s` after its last `.` — `s.rsplit(".", 1)[-1]` when `.`
occurs in `s`. -/
def afterLastDot (s : List Char) : List Char :=
  (s.reverse.takeWhile fun c => c != '.').reverse

/-- `SupremeCourtDownloader.infer_extension`: the lowercased part after the
last `.`, defaulting to `pdf` when the name contains no `.`. -/
def infer_extension (filename : String) : String :=
  if filename.data.contains '.' then pyLower (String.mk (afterLastDot filename.data))
  else ("pdf")

/-- A verdict record as returned by the search API: the fields that
`create_download_jobs` and `download_file` read via `case.get(...)`, each
possibly absent.  `CaseType` carries the JSON key `"Type"` (a Lean keyword). -/
structure Case where
  PathForWeb : Option String
  FileName : Option String
  DocName : Option String
  CaseId : Option String
  CaseNum : Option String
  CaseName : Option String
  CaseDesc : Option String
  CaseType : Option String
  VerdictDt : Option String
  VerdictsDtString : Option String
  Year : Option String
  deriving DecidableEq, Repr

def DOWNLOAD_BASE_URL : String := "https://supremedecisions.court.gov.il/Home/Download"

/-- A download job dictionary `{"url": url, "case": case}`. -/
structure Job where
  url : String
  case : Case
  deriving DecidableEq, Repr

/-- Python truthiness test `not x` for an optional string: holds for a
missing key (`None`) and for the empty string. -/
def falsy : Option String → Bool
  | none => true
  | some s => s == ""

/-- `SupremeCourtDownloader.create_download_jobs`: for each record read
`PathForWeb` and `FileName`, skip the record when either is falsy, otherwise
append the job with its constructed download URL — preserving order. -/
def create_download_jobs : List Case → List Job
  | [] => []
  | c :: rest =>
    if falsy c.PathForWeb || falsy c.FileName then create_download_jobs rest
    else
      { url := DOWNLOAD_BASE_URL ++ "?path=" ++ c.PathForWeb.getD ("") ++
          "&fileName=" ++ c.FileName.getD ("") ++ "&type=2",
        case := c } :: create_download_jobs rest

/-- One element of `self.metadata` (a `MetadataEntry`). -/
structure MetadataEntry where
  index : Nat
  case_id : Option String
  case_number : Option String
  parties : Option String
  case_description : Option String
  decision_type : Option String
  decision_date : Option String
  published_date : Option String
  year : Option String
  file_name : String
  file_size_bytes : Nat
  download_url : String
  local_path : String
  deriving DecidableEq, Repr

/-- The dictionary appended to `self.metadata` by `download_file` when an
attempt succeeds, for the job at sequence index `index` with computed local
file name `local_filename` and downloaded size `file_size`. -/
def successEntry (job : Job) (index : Nat) (local_filename : String) (file_size : Nat) :
    MetadataEntry where
  index := index
  case_id := job.case.CaseId
  case_number := job.case.CaseNum
  parties := job.case.CaseName
  case_description := job.case.CaseDesc
  decision_type := job.case.CaseType
  decision_date := parse_dotnet_date job.case.VerdictDt
  published_date := job.case.VerdictsDtString
  year := job.case.Year
  file_name := local_filename
  file_size_bytes := file_size
  download_url := job.url
  local_path := "output/documents/" ++ local_filename

/-- `original_name = case.get("DocName") or qs["fileName"][0]`: the left
operand when truthy; otherwise the query-string lookup, whose failure
(`none`) models a `KeyError` that `download_file` does not catch. -/
def original_name (job : Job) : Option String :=
  match job.case.DocName with
  | some d =>
    if d ≠ "" then some d
    else (qsFirst ("fileName").data (urlparseQuery job.url.data)).map String.mk
  | none => (qsFirst ("fileName").data (urlparseQuery job.url.data)).map String.mk

/-- One HTTP attempt is modelled by an oracle from the attempt number to
`some size` (HTTP 2xx; `size` bytes streamed to disk and reported by
`stat`) or `none` (any raised exception: timeout, connection error, or the
`raise_for_status` on a non-2xx status).  `attemptLoop oracle fuel a` runs
the source's `for attempt in range(1, 6)` loop from attempt number `a` with
`fuel` iterations left, returning the successful size (if any), the list of
`time.sleep(2 ** attempt)` durations performed — the `sleep` sits in the
`except` block, so it runs after every failed attempt — and the number of
attempts made. -/
def attemptLoop (oracle : Nat → Option Nat) : Nat → Nat → Option Nat × List Nat × Nat
  | 0, _ => (none, [], 0)
  | fuel + 1, a =>
    match oracle a with
    | some size => (some size, [], 1)
    | none =>
      let r := attemptLoop oracle fuel (a + 1)
      (r.1, 2 ^ a :: r.2.1, r.2.2 + 1)

/-- `SupremeCourtDownloader.download_file` for the job at 1-based sequence
index `index`.  The outer `Option` is `none` when the `qs["fileName"][0]`
lookup raises before the loop (no attempt is then made); otherwise the
result carries the appended `MetadataEntry` (`none` after five failures),
the sleep durations, and the attempt count.  `total` is only logged. -/
def download_file (job : Job) (index : Nat) (total : Nat) (oracle : Nat → Option Nat) :
    Option (Option MetadataEntry × List Nat × Nat) :=
  match original_name job with
  | none => none
  | some oname =>
    let extension := infer_extension oname
    let local_filename := "case_" ++ pad 3 index ++ "." ++ extension
    match attemptLoop oracle 5 1 with
    | (some size, sleeps, n) => some (some (successEntry job index local_filename size), sleeps, n)
    | (none, sleeps, n) => some (none, sleeps, n)

/-- The search response as seen through `fetch_verdicts`'s handling: either
some raised exception (timeout, connection reset, the `raise_for_status` on
a non-2xx status, JSON decode error), or a decoded JSON body whose optional
`data` key holds the record list. -/
inductive FetchResponse where
  | failure
  | success (data : Option (List Case))

/-- `SupremeCourtDownloader.fetch_verdicts`: every exception is caught and
yields `[]`; on success `response.json().get("data", [])`. -/
def fetch_verdicts : FetchResponse → List Case
  | .failure => []
  | .success none => []
  | .success (some d) => d

/-- The loop `for index, job in enumerate(jobs, start=1)` of `run`,
collecting the metadata entries appended by each `download_file` call in
order; `none` when some call raises (the exception propagates out of
`run`). -/
def processJobs (oracle : Nat → Nat → Option Nat) (total : Nat) : Nat → List Job → Option (List MetadataEntry)
  | _, [] => some []
  | i, j :: rest =>
    match download_file j i total (oracle i) with
    | none => none
    | some (entry, _, _) =>
      match processJobs oracle total (i + 1) rest with
      | none => none
      | some md => some (entry.toList ++ md)

/-- Whether the `download_file` call for `job` at index `i` appends a
metadata entry (some attempt within the budget succeeds). -/
def downloadSucceeded (job : Job) (i total : Nat) (oracle : Nat → Option Nat) : Bool :=
  match download_file job i total oracle with
  | some (some _, _, _) => true
  | _ => false

/-- The number of jobs in the list whose download succeeds, indices counted
from `i` as in `processJobs`. -/
def countSuccesses (oracle : Nat → Nat → Option Nat) (total : Nat) : Nat → List Job → Nat
  | _, [] => 0
  | i, j :: rest =>
    (if downloadSucceeded j i total (oracle i) then 1 else 0) +
      countSuccesses oracle total (i + 1) rest

/-- The observable outcome of `run`: the jobs built, the final
`self.metadata`, the metadata file contents once the run ends (`none` =
never written, so a pre-existing file would survive as `prior`), and the
number of `download_file` invocations. -/
structure RunResult where
  jobs : List Job
  metadata : List MetadataEntry
  metadata_file : Option (List MetadataEntry)
  downloads : Nat
  deriving DecidableEq, Repr

/-- `SupremeCourtDownloader.run`: fetch verdicts; when the list is empty,
return before building jobs (the metadata file keeps its prior contents);
otherwise build the jobs, download each in order, then serialize
`self.metadata` to the metadata file, unconditionally replacing any prior
contents.  `none` models an uncaught exception aborting the run. -/
def run (resp : FetchResponse) (oracle : Nat → Nat → Option Nat)
    (prior : Option (List MetadataEntry)) : Option RunResult :=
  let cases := fetch_verdicts resp
  if cases = [] then
    some { jobs := [], metadata := [], metadata_file := prior, downloads := 0 }
  else
    let jobs := create_download_jobs cases
    match processJobs oracle jobs.length 1 jobs with
    | none => none
    | some md =>
      some { jobs := jobs, metadata := md, metadata_file := some md, downloads := jobs.length }

/-! ### Concrete sample inputs used to instantiate the theorems -/

/-- A well-formed verdict record (the §8 scenario of the design notes:
`PathForWeb="2025/09/30"`, `FileName="ruling.pdf"`). -/
def sampleCase : Case where
  PathForWeb := some ("2025/09/30")
  FileName := some ("ruling.pdf")
  DocName := none
  CaseId := some ("id1")
  CaseNum := none
  CaseName := none
  CaseDesc := none
  CaseType := none
  VerdictDt := some ("/Date(1696118400000)/")
  VerdictsDtString := none
  Year := none

/-- The job `create_download_jobs` derives from `sampleCase`. -/
def sampleJob : Job where
  url := "https://supremedecisions.court.gov.il/Home/Download?path=2025/09/30&fileName=ruling.pdf&type=2"
  case := sampleCase

/-- A verdict record whose storage path contains a `#` character. -/
def hashCase : Case where
  PathForWeb := some ("a#b")
  FileName := some ("f.pdf")
  DocName := none
  CaseId := none
  CaseNum := none
  CaseName := none
  CaseDesc := none
  CaseType := none
  VerdictDt := none
  VerdictsDtString := none
  Year := none

/-- The job `create_download_jobs` derives from `hashCase`. -/
def hashJob : Job where
  url := "https://supremedecisions.court.gov.il/Home/Download?path=a#b&fileName=f.pdf&type=2"
  case := hashCase

/-! ### Lemmas about the retry loop and `download_file` -/

theorem attemptLoop_sleeps (oracle : Nat → Option Nat) :
    ∀ (fuel a : Nat),
      (attemptLoop oracle fuel a).2.1 =
        (List.range' a (attemptLoop oracle fuel a).2.1.length).map (fun n => 2 ^ n)
  | 0, a => by simp [attemptLoop]
  | fuel + 1, a => by
    simp only [attemptLoop]
    cases h : oracle a with
    | some size => simp
    | none =>
      simp only [List.length_cons, List.range'_succ, List.map_cons]
      exact congrArg _ (attemptLoop_sleeps oracle fuel (a + 1))

theorem attemptLoop_none (oracle : Nat → Option Nat) :
    ∀ (fuel a : Nat), (attemptLoop oracle fuel a).1 = none →
      (attemptLoop oracle fuel a).2.1.length = fuel
      ∧ (attemptLoop oracle fuel a).2.2 = fuel
      ∧ ∀ k, k < fuel → oracle (a + k) = none
  | 0, a => by simp [attemptLoop]
  | fuel + 1, a => by
    simp only [attemptLoop]
    cases h : oracle a with
    | some size => simp
    | none =>
      intro _
      obtain ⟨h1, h2, h3⟩ := attemptLoop_none oracle fuel (a + 1) (by assumption)
      refine ⟨by simp [h1], by simp [h2], ?_⟩
      intro k hk
      match k with
      | 0 => simpa using h
      | k + 1 => have := h3 k (by omega); simpa [Nat.add_assoc, Nat.add_comm 1 k] using this

theorem attemptLoop_some (oracle : Nat → Option Nat) :
    ∀ (fuel a : Nat) (s : Nat), (attemptLoop oracle fuel a).1 = some s →
      (attemptLoop oracle fuel a).2.2 = (attemptLoop oracle fuel a).2.1.length + 1
      ∧ (attemptLoop oracle fuel a).2.1.length < fuel
      ∧ oracle (a + (attemptLoop oracle fuel a).2.1.length) = some s
      ∧ ∀ k, k < (attemptLoop oracle fuel a).2.1.length → oracle (a + k) = none
  | 0, a, s => by simp [attemptLoop]
  | fuel + 1, a, s => by
    simp only [attemptLoop]
    cases h : oracle a with
    | some size =>
      intro hs
      refine ⟨rfl, by simp, ?_, by simp⟩
      simpa [h] using hs
    | none =>
      intro hs
      obtain ⟨h1, h2, h3, h4⟩ := attemptLoop_some oracle fuel (a + 1) s (by simpa using hs)
      refine ⟨by simp [h1], by simpa using h2, ?_, ?_⟩
      · simpa [Nat.add_assoc, Nat.add_comm 1] using h3
      · intro k hk
        match k with
        | 0 => simpa using h
        | k + 1 =>
          have := h4 k (by simpa using hk)
          simpa [Nat.add_assoc, Nat.add_comm 1 k] using this

theorem download_file_none_iff (job : Job) (i t : Nat) (o : Nat → Option Nat) :
    download_file job i t o = none ↔ original_name job = none := by
  unfold download_file
  cases original_name job with
  | none => simp
  | some nm =>
    simp only
    rcases h : attemptLoop o 5 1 with ⟨r, l, n⟩
    cases r <;> simp

theorem download_file_some_spec (job : Job) (i t : Nat) (o : Nat → Option Nat)
    (r : Option MetadataEntry) (l : List Nat) (n : Nat)
    (h : download_file job i t o = some (r, l, n)) :
    ∃ nm, original_name job = some nm
      ∧ r = (attemptLoop o 5 1).1.map
          (successEntry job i ("case_" ++ pad 3 i ++ "." ++ infer_extension nm))
      ∧ l = (attemptLoop o 5 1).2.1 ∧ n = (attemptLoop o 5 1).2.2 := by
  unfold download_file at h
  cases hnm : original_name job with
  | none => rw [hnm] at h; exact absurd h (by simp)
  | some nm =>
    rw [hnm] at h
    refine ⟨nm, rfl, ?_⟩
    rcases ha : attemptLoop o 5 1 with ⟨ar, al, an⟩
    rw [ha] at h
    cases ar with
    | none => simp only at h; injection h with h'; injection h' with h1 h2; injection h2 with h2 h3; simp [h1.symm, h2.symm, h3.symm]
    | some size => simp only at h; injection h with h'; injection h' with h1 h2; injection h2 with h2 h3; simp [h1.symm, h2.symm, h3.symm]

/-! ### C1 — backoff delays -/

/-- C1 (counterexample): the claim says the delays across the five attempts
are 1, 2, 4, 8, 16 seconds and that no delay follows the final attempt.  On
a job whose five attempts all fail, the code sleeps 2, 4, 8, 16 and 32
seconds — five delays for five attempts, so a delay does follow the final
(5th) attempt, and the delay before attempt `n+1` is `2^n` with `n` the
1-based failed attempt number, giving 2 seconds (not 1) before attempt 2. -/
theorem C1_counterexample :
    download_file sampleJob 1 1 (fun _ => none) = some (none, [2, 4, 8, 16, 32], 5)
    ∧ [2, 4, 8, 16, 32] ≠ [1, 2, 4, 8, 16] :=
  ⟨by decide, by decide⟩

/-- C1 (amended): whenever `download_file` returns (no uncaught lookup
error), the i-th delay (1-based, the delay before attempt i+1) is `2^i`
seconds — 2, 4, 8, 16, 32 — each delay follows a failed attempt, a
successful attempt is followed by no further delay, and after five failed
attempts five delays were slept, including one after the final attempt. -/
theorem C1_backoff_delays (job : Job) (index total : Nat) (oracle : Nat → Option Nat)
    (r : Option MetadataEntry) (l : List Nat) (n : Nat)
    (h : download_file job index total oracle = some (r, l, n)) :
    l = (List.range' 1 l.length).map (fun a => 2 ^ a)
    ∧ (∀ a, 1 ≤ a → a ≤ l.length → oracle a = none)
    ∧ (∀ e, r = some e → n = l.length + 1 ∧ l.length < 5 ∧ oracle n ≠ none)
    ∧ (r = none → l.length = 5 ∧ n = 5) := by
  obtain ⟨nm, hnm, hr, hl, hn⟩ := download_file_some_spec job index total oracle r l n h
  subst hl hn
  refine ⟨attemptLoop_sleeps oracle 5 1, ?_, ?_, ?_⟩
  · intro a h1 h2
    have ha : 1 + (a - 1) = a := by omega
    cases hres : (attemptLoop oracle 5 1).1 with
    | none =>
      obtain ⟨hlen, _, hall⟩ := attemptLoop_none oracle 5 1 hres
      have := hall (a - 1) (by omega)
      rwa [ha] at this
    | some s =>
      obtain ⟨_, _, _, hall⟩ := attemptLoop_some oracle 5 1 s hres
      have := hall (a - 1) (by omega)
      rwa [ha] at this
  · intro e he
    rw [he] at hr
    have hsome : ∃ s, (attemptLoop oracle 5 1).1 = some s := by
      cases hres : (attemptLoop oracle 5 1).1 with
      | none => rw [hres] at hr; exact absurd hr.symm (by simp)
      | some s => exact ⟨s, rfl⟩
    obtain ⟨s, hs⟩ := hsome
    obtain ⟨h1, h2, h3, _⟩ := attemptLoop_some oracle 5 1 s hs
    refine ⟨h1, h2, ?_⟩
    rw [h1, Nat.add_comm, h3]
    simp
  · intro hnone
    rw [hnone] at hr
    have hres : (attemptLoop oracle 5 1).1 = none := by
      cases hres : (attemptLoop oracle 5 1).1 with
      | none => rfl
      | some s => rw [hres] at hr; exact absurd hr.symm (by simp)
    obtain ⟨h1, h2, _⟩ := attemptLoop_none oracle 5 1 hres
    exact ⟨h1, h2⟩

/-- C1 (witness): the amended theorem applied to the sample job with every
attempt failing. -/
theorem C1_backoff_delays_witness :
    ([2, 4, 8, 16, 32] : List Nat) =
      (List.range' 1 ([2, 4, 8, 16, 32] : List Nat).length).map (fun a => 2 ^ a) :=
  (C1_backoff_delays sampleJob 1 1 (fun _ => none) none [2, 4, 8, 16, 32] 5 (by decide)).1

/-! ### C2 — retry budget and early return -/

/-- C2: whenever `download_file` returns, it made at most five attempts; if
an entry was recorded, the last attempt made is the first successful one
(every earlier attempt failed, and the loop returned immediately: the entry
carries that attempt's byte size and the job's sequence index); if no entry
was recorded, all five attempts failed; and a job whose download returns no
entry leaves the processing of the remaining jobs unchanged — the pipeline
continues. -/
theorem C2_retry_budget (job : Job) (index total : Nat) (oracle : Nat → Option Nat)
    (r : Option MetadataEntry) (l : List Nat) (n : Nat)
    (h : download_file job index total oracle = some (r, l, n)) :
    n ≤ 5
    ∧ (∀ e, r = some e →
        e.index = index
        ∧ (∃ size, oracle n = some size ∧ e.file_size_bytes = size)
        ∧ ∀ a, 1 ≤ a → a < n → oracle a = none)
    ∧ (r = none → n = 5 ∧ ∀ a, 1 ≤ a → a ≤ 5 → oracle a = none)
    ∧ (∀ (oracle2 : Nat → Nat → Option Nat) (total2 i : Nat) (rest : List Job)
        (l2 : List Nat) (n2 : Nat),
        download_file job i total2 (oracle2 i) = some (none, l2, n2) →
        processJobs oracle2 total2 i (job :: rest) = processJobs oracle2 total2 (i + 1) rest) := by
  obtain ⟨nm, hnm, hr, hl, hn⟩ := download_file_some_spec job index total oracle r l n h
  refine ⟨?_, ?_, ?_, ?_⟩
  · cases hres : (attemptLoop oracle 5 1).1 with
    | none => obtain ⟨_, h2, _⟩ := attemptLoop_none oracle 5 1 hres; omega
    | some s => obtain ⟨h1, h2, _⟩ := attemptLoop_some oracle 5 1 s hres; omega
  · intro e he
    rw [he] at hr
    have hsome : ∃ s, (attemptLoop oracle 5 1).1 = some s := by
      cases hres : (attemptLoop oracle 5 1).1 with
      | none => rw [hres] at hr; exact absurd hr.symm (by simp)
      | some s => exact ⟨s, rfl⟩
    obtain ⟨s, hs⟩ := hsome
    obtain ⟨h1, h2, h3, h4⟩ := attemptLoop_some oracle 5 1 s hs
    have he' : e = successEntry job index ("case_" ++ pad 3 index ++ "." ++ infer_extension nm) s := by
      rw [hs] at hr; simpa using hr
    refine ⟨by rw [he']; rfl, ⟨s, ?_, by rw [he']; rfl⟩, ?_⟩
    · rw [hn, h1, Nat.add_comm]; exact h3
    · intro a ha1 ha2
      have ha : 1 + (a - 1) = a := by omega
      have := h4 (a - 1) (by omega)
      rwa [ha] at this
  · intro hnone
    rw [hnone] at hr
    have hres : (attemptLoop oracle 5 1).1 = none := by
      cases hres : (attemptLoop oracle 5 1).1 with
      | none => rfl
      | some s => rw [hres] at hr; exact absurd hr.symm (by simp)
    obtain ⟨h1, h2, h3⟩ := attemptLoop_none oracle 5 1 hres
    refine ⟨by omega, ?_⟩
    intro a ha1 ha2
    have ha : 1 + (a - 1) = a := by omega
    have := h3 (a - 1) (by omega)
    rwa [ha] at this
  · intro oracle2 total2 i rest l2 n2 hd
    simp only [processJobs, hd]
    cases processJobs oracle2 total2 (i + 1) rest <;> simp

/-- C2 (witness): the theorem applied to the sample job with a first attempt
succeeding at 7 bytes. -/
theorem C2_retry_budget_witness : (1 : Nat) ≤ 5 :=
  (C2_retry_budget sampleJob 1 1 (fun _ => some 7)
    (some (successEntry sampleJob 1 ("case_001.pdf") 7)) [] 1 (by decide)).1

/-! ### Lemmas about `processJobs` -/

theorem download_file_entry_index (job : Job) (i t : Nat) (o : Nat → Option Nat)
    (e : MetadataEntry) (l : List Nat) (n : Nat)
    (h : download_file job i t o = some (some e, l, n)) : e.index = i := by
  obtain ⟨nm, hnm, hr, hl, hn⟩ := download_file_some_spec job i t o (some e) l n h
  cases hs : (attemptLoop o 5 1).1 with
  | none => rw [hs] at hr; exact absurd hr (by simp)
  | some s =>
    rw [hs] at hr
    have he : e = successEntry job i ("case_" ++ pad 3 i ++ "." ++ infer_extension nm) s := by
      simpa using hr
    rw [he]
    rfl

theorem processJobs_sublist (oracle : Nat → Nat → Option Nat) (total : Nat) :
    ∀ (jobs : List Job) (i : Nat) (md : List MetadataEntry),
      processJobs oracle total i jobs = some md →
      (md.map fun e => e.index).Sublist (List.range' i jobs.length)
  | [], i, md => by
    simp only [processJobs, Option.some.injEq]
    rintro rfl
    simp
  | j :: rest, i, md => by
    simp only [processJobs]
    cases hd : download_file j i total (oracle i) with
    | none => simp
    | some t =>
      rcases t with ⟨entry, l, n⟩
      cases hrec : processJobs oracle total (i + 1) rest with
      | none => simp
      | some md' =>
        simp only [Option.some.injEq]
        rintro rfl
        have IH := processJobs_sublist oracle total rest (i + 1) md' hrec
        rw [List.length_cons, List.range'_succ]
        cases entry with
        | none => exact List.Sublist.cons i (by simpa using IH)
        | some e =>
          have hidx : e.index = i := download_file_entry_index j i total (oracle i) e l n hd
          simpa [hidx] using List.Sublist.cons₂ i (by simpa using IH)

theorem processJobs_count (oracle : Nat → Nat → Option Nat) (total : Nat) :
    ∀ (jobs : List Job) (i : Nat) (md : List MetadataEntry),
      processJobs oracle total i jobs = some md →
      md.length = countSuccesses oracle total i jobs
  | [], i, md => by
    simp only [processJobs, Option.some.injEq]
    rintro rfl
    simp [countSuccesses]
  | j :: rest, i, md => by
    simp only [processJobs]
    cases hd : download_file j i total (oracle i) with
    | none => simp
    | some t =>
      rcases t with ⟨entry, l, n⟩
      cases hrec : processJobs oracle total (i + 1) rest with
      | none => simp
      | some md' =>
        simp only [Option.some.injEq]
        rintro rfl
        have IH := processJobs_count oracle total rest (i + 1) md' hrec
        cases entry with
        | none => simp [countSuccesses, downloadSucceeded, hd, IH]
        | some e =>
          simp [countSuccesses, downloadSucceeded, hd, IH]
          omega

theorem processJobs_mem_iff (oracle : Nat → Nat → Option Nat) (total : Nat) :
    ∀ (jobs : List Job) (i : Nat) (md : List MetadataEntry),
      processJobs oracle total i jobs = some md →
      ∀ (k : Nat) (hk : k < jobs.length),
        (∃ e ∈ md, e.index = i + k) ↔
          downloadSucceeded (jobs.get ⟨k, hk⟩) (i + k) total (oracle (i + k)) = true
  | [], i, md => by intro h k hk; exact absurd hk (by simp)
  | j :: rest, i, md => by
    simp only [processJobs]
    cases hd : download_file j i total (oracle i) with
    | none => simp
    | some t =>
      rcases t with ⟨entry, l, n⟩
      cases hrec : processJobs oracle total (i + 1) rest with
      | none => simp
      | some md' =>
        simp only [Option.some.injEq]
        rintro rfl k hk
        match k with
        | 0 =>
          simp only [List.get, Nat.add_zero]
          cases entry with
          | some e =>
            have hidx : e.index = i := download_file_entry_index j i total (oracle i) e l n hd
            exact iff_of_true ⟨e, by simp, hidx⟩ (by simp [downloadSucceeded, hd])
          | none =>
            refine iff_of_false ?_ (by simp [downloadSucceeded, hd])
            rintro ⟨e, he, hidx⟩
            have hmem : e.index ∈ List.range' (i + 1) rest.length :=
              (processJobs_sublist oracle total rest (i + 1) md' hrec).subset
                (List.mem_map.mpr ⟨e, by simpa using he, rfl⟩)
            obtain ⟨idx, hidx', heq⟩ := List.mem_range'.mp hmem
            omega
        | k + 1 =>
          have IH := processJobs_mem_iff oracle total rest (i + 1) md' hrec k (by simpa using hk)
          have harith : i + 1 + k = i + (k + 1) := by omega
          rw [harith] at IH
          refine Iff.trans ?_ (Iff.trans IH (by rfl))
          constructor
          · rintro ⟨e, he, hidx⟩
            cases entry with
            | none => exact ⟨e, by simpa using he, hidx⟩
            | some e0 =>
              have hidx0 : e0.index = i := download_file_entry_index j i total (oracle i) e0 l n hd
              rcases (by simpa using he : e = e0 ∨ e ∈ md') with rfl | hmem
              · omega
              · exact ⟨e, hmem, hidx⟩
          · rintro ⟨e, he, hidx⟩
            exact ⟨e, by cases entry <;> simp [he], hidx⟩

/-! ### C3 — metadata entries iff successful downloads, ordered -/

/-- C3: for any completed job processing, the metadata list has at most one
entry per job, its length equals the number of successful downloads, its
sequence indices form a subsequence of the job index range in strictly
ascending order, and index `i+k` appears exactly when job `k`'s download
succeeded; moreover a completed `run` with a non-empty fetch persists
exactly its in-memory metadata list, which is the processing result over
the jobs it built. -/
theorem C3_metadata_invariants :
    (∀ (oracle : Nat → Nat → Option Nat) (total i : Nat) (jobs : List Job)
      (md : List MetadataEntry),
      processJobs oracle total i jobs = some md →
      md.length ≤ jobs.length
      ∧ md.length = countSuccesses oracle total i jobs
      ∧ (md.map fun e => e.index).Sublist (List.range' i jobs.length)
      ∧ List.Pairwise (· < ·) (md.map fun e => e.index)
      ∧ ∀ (k : Nat) (hk : k < jobs.length),
          ((∃ e ∈ md, e.index = i + k) ↔
            downloadSucceeded (jobs.get ⟨k, hk⟩) (i + k) total (oracle (i + k)) = true))
    ∧ (∀ (resp : FetchResponse) (oracle : Nat → Nat → Option Nat)
        (prior : Option (List MetadataEntry)) (res : RunResult),
        run resp oracle prior = some res → fetch_verdicts resp ≠ [] →
        res.metadata_file = some res.metadata
        ∧ res.jobs = create_download_jobs (fetch_verdicts resp)
        ∧ processJobs oracle res.jobs.length 1 res.jobs = some res.metadata) := by
  constructor
  · intro oracle total i jobs md h
    have hsub := processJobs_sublist oracle total jobs i md h
    refine ⟨?_, processJobs_count oracle total jobs i md h, hsub, ?_,
      processJobs_mem_iff oracle total jobs i md h⟩
    · have := hsub.length_le
      simpa using this
    · exact List.Pairwise.sublist hsub (List.pairwise_lt_range' i jobs.length 1)
  · intro resp oracle prior res hres hne
    simp only [run] at hres
    rw [if_neg hne] at hres
    cases hp : processJobs oracle (create_download_jobs (fetch_verdicts resp)).length 1
        (create_download_jobs (fetch_verdicts resp)) with
    | none => rw [hp] at hres; exact absurd hres (by simp)
    | some md =>
      rw [hp] at hres
      have hres' : res = RunResult.mk (create_download_jobs (fetch_verdicts resp)) md (some md)
          (create_download_jobs (fetch_verdicts resp)).length := by
        simpa using hres.symm
      subst hres'
      exact ⟨rfl, rfl, hp⟩

/-- C3 (witness): the invariants instantiated on a single-job run whose
download succeeds on the first attempt with 7 bytes. -/
theorem C3_metadata_invariants_witness :
    ([successEntry sampleJob 1 ("case_001.pdf") 7].length ≤ [sampleJob].length) :=
  ((C3_metadata_invariants.1 (fun _ _ => some 7) 1 1 [sampleJob]
    [successEntry sampleJob 1 ("case_001.pdf") 7] (by decide))).1

/-! ### Lemmas about `create_download_jobs` -/

theorem create_download_jobs_eq :
    ∀ (records : List Case),
      create_download_jobs records =
        (records.filter fun c => !(falsy c.PathForWeb || falsy c.FileName)).map
          (fun c => Job.mk (DOWNLOAD_BASE_URL ++ "?path=" ++ c.PathForWeb.getD ("") ++
            "&fileName=" ++ c.FileName.getD ("") ++ "&type=2") c)
  | [] => rfl
  | c :: rest => by
    simp only [create_download_jobs, List.filter_cons]
    by_cases h : (falsy c.PathForWeb || falsy c.FileName) = true
    · simp [h, create_download_jobs_eq rest]
    · simp [Bool.not_eq_true] at h
      simp [h, create_download_jobs_eq rest]

theorem mem_create_download_jobs (records : List Case) (j : Job)
    (h : j ∈ create_download_jobs records) :
    ∃ p f, j.case.PathForWeb = some p ∧ j.case.FileName = some f ∧ p ≠ "" ∧ f ≠ ""
      ∧ j.url = DOWNLOAD_BASE_URL ++ "?path=" ++ p ++ "&fileName=" ++ f ++ "&type=2" := by
  rw [create_download_jobs_eq] at h
  obtain ⟨c, hc, rfl⟩ := List.mem_map.mp h
  have hcf := (List.mem_filter.mp hc).2
  simp only [Bool.not_eq_eq_eq_not, Bool.not_true, Bool.or_eq_false_iff] at hcf
  obtain ⟨hp, hf⟩ := hcf
  cases hpw : c.PathForWeb with
  | none => rw [hpw] at hp; exact absurd hp (by simp [falsy])
  | some p =>
    cases hfn : c.FileName with
    | none => rw [hfn] at hf; exact absurd hf (by simp [falsy])
    | some f =>
      rw [hpw] at hp
      rw [hfn] at hf
      refine ⟨p, f, rfl, rfl, ?_, ?_, by simp⟩
      · simpa [falsy] using hp
      · simpa [falsy] using hf

/-! ### C4 — malformed records are dropped, order preserved -/

/-- C4: job building is exactly a filter (records with a missing-or-empty
path or file name are dropped) followed by an order-preserving map to the
job each surviving record induces; hence at most one job per record, and
every produced job carries a record with both fields present and
non-empty. -/
theorem C4_job_filtering (records : List Case) :
    create_download_jobs records =
      (records.filter fun c => !(falsy c.PathForWeb || falsy c.FileName)).map
        (fun c => Job.mk (DOWNLOAD_BASE_URL ++ "?path=" ++ c.PathForWeb.getD ("") ++
          "&fileName=" ++ c.FileName.getD ("") ++ "&type=2") c)
    ∧ (create_download_jobs records).length ≤ records.length
    ∧ ∀ j ∈ create_download_jobs records,
        falsy j.case.PathForWeb = false ∧ falsy j.case.FileName = false := by
  refine ⟨create_download_jobs_eq records, ?_, ?_⟩
  · rw [create_download_jobs_eq records, List.length_map]
    exact List.length_filter_le _ records
  · intro j hj
    obtain ⟨p, f, hp, hf, hp0, hf0, _⟩ := mem_create_download_jobs records j hj
    constructor
    · rw [hp]; simpa [falsy] using hp0
    · rw [hf]; simpa [falsy] using hf0

/-- C4 (witness): on a two-record list whose second record lacks a file
name, exactly the first record yields a job. -/
theorem C4_job_filtering_witness :
    falsy (Job.case (Job.mk ("https://supremedecisions.court.gov.il/Home/Download" ++
        "?path=" ++ "2025/09/30" ++ "&fileName=" ++ "ruling.pdf" ++ "&type=2") sampleCase)).PathForWeb
      = false :=
  ((C4_job_filtering [sampleCase]).2.2 _ (by decide)).1

/-! ### C5 — soft-failing fetch -/

/-- C5: `fetch_verdicts` maps every transport-level failure to the empty
list (it never lets the exception escape), a response body without a `data`
key to the empty list, and a response with a `data` array to that array. -/
theorem C5_fetch_soft_failure :
    fetch_verdicts .failure = []
    ∧ fetch_verdicts (.success none) = []
    ∧ ∀ d, fetch_verdicts (.success (some d)) = d :=
  ⟨rfl, rfl, fun _ => rfl⟩

/-! ### C6 — empty fetch aborts; otherwise the metadata file is written once -/

/-- C6 (counterexample): the claim says a non-empty fetch always ends with
the metadata file written exactly once.  The fetch returning the single
record `hashCase` is non-empty and the record passes validation, but its
job's `qs["fileName"][0]` lookup raises before the first attempt, the
exception propagates out of `run` before the write, and the metadata file
is never written (`run` yields no result). -/
theorem C6_counterexample :
    fetch_verdicts (.success (some [hashCase])) ≠ []
    ∧ run (.success (some [hashCase])) (fun _ _ => some 7) none = none :=
  ⟨by decide, by decide⟩

/-- C6 (amended): when the fetch yields no records, `run` returns before
building jobs — zero jobs, zero `download_file` calls, the metadata file
untouched.  When it yields records, either some job's `fileName` lookup
raises an uncaught exception — the run aborts during job processing and
the file is never written — or the run completes: then the final metadata
file holds exactly the run's metadata list, written once after every job
was attempted, independently of whatever the file previously contained
(an unconditional overwrite). -/
theorem C6_run_terminal_or_flush (resp : FetchResponse) (oracle : Nat → Nat → Option Nat)
    (prior : Option (List MetadataEntry)) :
    (fetch_verdicts resp = [] →
      run resp oracle prior = some (RunResult.mk [] [] prior 0))
    ∧ (fetch_verdicts resp ≠ [] → ∀ res, run resp oracle prior = some res →
        res.metadata_file = some res.metadata
        ∧ res.downloads = res.jobs.length
        ∧ ∀ prior2, run resp oracle prior2 = some res)
    ∧ (run resp oracle prior = none →
        fetch_verdicts resp ≠ []
        ∧ processJobs oracle (create_download_jobs (fetch_verdicts resp)).length 1
            (create_download_jobs (fetch_verdicts resp)) = none) := by
  refine ⟨?_, ?_, ?_⟩
  · intro h
    simp [run, h]
  · intro h res hres
    simp only [run] at hres
    rw [if_neg h] at hres
    cases hp : processJobs oracle (create_download_jobs (fetch_verdicts resp)).length 1
        (create_download_jobs (fetch_verdicts resp)) with
    | none => rw [hp] at hres; exact absurd hres (by simp)
    | some md =>
      rw [hp] at hres
      have hres' : res = RunResult.mk (create_download_jobs (fetch_verdicts resp)) md (some md)
          (create_download_jobs (fetch_verdicts resp)).length := by
        simpa using hres.symm
      subst hres'
      refine ⟨rfl, rfl, ?_⟩
      intro prior2
      simp [run, if_neg h, hp]
  · intro hnone
    by_cases h : fetch_verdicts resp = []
    · rw [(by simp [run, h] : run resp oracle prior = some (RunResult.mk [] [] prior 0))] at hnone
      exact absurd hnone (by simp)
    · refine ⟨h, ?_⟩
      simp only [run] at hnone
      rw [if_neg h] at hnone
      cases hp : processJobs oracle (create_download_jobs (fetch_verdicts resp)).length 1
          (create_download_jobs (fetch_verdicts resp)) with
      | none => rfl
      | some md => rw [hp] at hnone; exact absurd hnone (by simp)

/-- C6 (witness): all three branches exercised — an empty `data` array ends
the run with the file untouched, a one-record fetch with a succeeding
download persists its single metadata entry, and the aborting `hashCase`
run is a non-empty fetch that crashed during job processing. -/
theorem C6_run_terminal_or_flush_witness :
    run (.success (some [])) (fun _ _ => some 7) none = some (RunResult.mk [] [] none 0)
    ∧ (RunResult.mk [sampleJob] [successEntry sampleJob 1 ("case_001.pdf") 7]
        (some [successEntry sampleJob 1 ("case_001.pdf") 7]) 1).metadata_file =
      some (RunResult.mk [sampleJob] [successEntry sampleJob 1 ("case_001.pdf") 7]
        (some [successEntry sampleJob 1 ("case_001.pdf") 7]) 1).metadata
    ∧ fetch_verdicts (.success (some [hashCase])) ≠ [] :=
  ⟨(C6_run_terminal_or_flush (.success (some [])) (fun _ _ => some 7) none).1 rfl,
   ((C6_run_terminal_or_flush (.success (some [sampleCase])) (fun _ _ => some 7) none).2.1
      (by decide) _ (by decide)).1,
   ((C6_run_terminal_or_flush (.success (some [hashCase])) (fun _ _ => some 7) none).2.2
      (by decide)).1⟩

/-! ### Lemmas about extension inference -/

theorem takeWhile_all_stop {α : Type} {p : α → Bool} (l₁ : List α) (c : α) (l₂ : List α)
    (h1 : ∀ x ∈ l₁, p x = true) (hc : p c = false) :
    List.takeWhile p (l₁ ++ c :: l₂) = l₁ := by
  induction l₁ with
  | nil => simp [List.takeWhile_cons, hc]
  | cons x xs ih =>
    have hx := h1 x (by simp)
    simp [List.takeWhile_cons, hx, ih (fun y hy => h1 y (by simp [hy]))]

theorem afterLastDot_append (a b : List Char) (hb : '.' ∉ b) :
    afterLastDot (a ++ '.' :: b) = b := by
  unfold afterLastDot
  rw [List.reverse_append, List.reverse_cons, List.append_assoc, List.singleton_append,
    takeWhile_all_stop b.reverse '.' a.reverse ?h1 (by simp), List.reverse_reverse]
  case h1 =>
    intro x hx
    rw [List.mem_reverse] at hx
    exact bne_iff_ne.mpr (fun h => hb (h ▸ hx))

/-! ### C7 — local file naming -/

/-- C7: every recorded entry's local file name is
`case_<index zero-padded to 3 digits>.<ext>` (and its local path puts that
name in the documents directory), where `ext` is computed by
`infer_extension` from the document's original name: `pdf` when that name
contains no `.`, and otherwise the lowercased part after the last `.`. -/
theorem C7_local_filename :
    (∀ (job : Job) (index total : Nat) (oracle : Nat → Option Nat)
      (e : MetadataEntry) (l : List Nat) (n : Nat) (nm : String),
      download_file job index total oracle = some (some e, l, n) →
      original_name job = some nm →
      e.file_name = "case_" ++ pad 3 index ++ "." ++ infer_extension nm
      ∧ e.local_path = "output/documents/" ++ e.file_name)
    ∧ (∀ s : String, s.data.contains '.' = false → infer_extension s = "pdf")
    ∧ (∀ a b : String, '.' ∉ b.data → infer_extension (a ++ "." ++ b) = pyLower b)
    ∧ pad 3 1 = "001" ∧ pad 3 42 = "042" ∧ pad 3 123 = "123" := by
  refine ⟨?_, ?_, ?_, rfl, rfl, rfl⟩
  · intro job index total oracle e l n nm h hnm
    obtain ⟨nm', hnm', hr, _, _⟩ := download_file_some_spec job index total oracle (some e) l n h
    rw [hnm] at hnm'
    injection hnm' with hnm''
    subst hnm''
    cases hs : (attemptLoop oracle 5 1).1 with
    | none => rw [hs] at hr; exact absurd hr (by simp)
    | some s =>
      rw [hs] at hr
      have he : e = successEntry job index ("case_" ++ pad 3 index ++ "." ++ infer_extension nm) s := by
        simpa using hr
      rw [he]
      exact ⟨rfl, rfl⟩
  · intro s h
    unfold infer_extension
    rw [h]
    simp
  · intro a b hb
    have hdata : (a ++ "." ++ b).data = a.data ++ '.' :: b.data := by
      rw [String.data_append, String.data_append]
      simp [List.append_assoc]
    have hc : (a.data ++ '.' :: b.data).contains '.' = true := by
      rw [List.contains_eq_any_beq]
      exact List.any_eq_true.mpr ⟨'.', by simp, by simp⟩
    unfold infer_extension
    rw [hdata, afterLastDot_append a.data b.data hb, if_pos hc]

/-- C7 (witness): the sample job downloads to `case_001.pdf`, and the
auxiliary clauses at `DOC.TXT`-style names. -/
theorem C7_local_filename_witness :
    (successEntry sampleJob 1 ("case_001.pdf") 7).file_name =
      "case_" ++ pad 3 1 ++ "." ++ infer_extension ("ruling.pdf") :=
  ((C7_local_filename.1 sampleJob 1 1 (fun _ => some 7)
    (successEntry sampleJob 1 ("case_001.pdf") 7) [] 1 ("ruling.pdf")
    (by decide) (by decide))).1

/-! ### C8 — download URL construction -/

/-- C8: every job built from a record with non-empty `PathForWeb` `p` and
non-empty `FileName` `f` has URL equal to the fixed download base followed
by the query `?path=p&fileName=f&type=2`, with the document-type
discriminator the fixed constant `2`. -/
theorem C8_download_url (records : List Case) (j : Job)
    (h : j ∈ create_download_jobs records) :
    ∃ p f, j.case.PathForWeb = some p ∧ j.case.FileName = some f ∧ p ≠ "" ∧ f ≠ ""
      ∧ j.url = DOWNLOAD_BASE_URL ++ "?path=" ++ p ++ "&fileName=" ++ f ++ "&type=2" :=
  mem_create_download_jobs records j h

/-- C8 (witness): the theorem applied to the job built from `sampleCase`. -/
theorem C8_download_url_witness :
    ∃ p f, sampleJob.case.PathForWeb = some p ∧ sampleJob.case.FileName = some f
      ∧ p ≠ "" ∧ f ≠ ""
      ∧ sampleJob.url = DOWNLOAD_BASE_URL ++ "?path=" ++ p ++ "&fileName=" ++ f ++ "&type=2" :=
  C8_download_url [sampleCase] sampleJob (by decide)

/-! ### Lemmas about the query-string parsing model -/

theorem beforeFirstChar_of_not_mem (c : Char) :
    ∀ (l : List Char), c ∉ l → beforeFirstChar c l = l
  | [] => by simp [beforeFirstChar]
  | x :: xs => by
    intro h
    simp only [beforeFirstChar]
    rw [if_neg (by rintro rfl; exact h (by simp)),
      beforeFirstChar_of_not_mem c xs (fun hm => h (by simp [hm]))]

theorem afterFirstChar_append (c : Char) :
    ∀ (l₁ l₂ : List Char), c ∉ l₁ → afterFirstChar c (l₁ ++ c :: l₂) = some l₂
  | [], l₂ => by simp [afterFirstChar]
  | x :: xs, l₂ => by
    intro h
    simp only [List.cons_append, afterFirstChar, List.append_eq]
    rw [if_neg (by rintro rfl; exact h (by simp)),
      afterFirstChar_append c xs l₂ (fun hm => h (by simp [hm]))]

theorem beforeFirstChar_append (c : Char) :
    ∀ (l₁ l₂ : List Char), c ∉ l₁ → beforeFirstChar c (l₁ ++ c :: l₂) = l₁
  | [], l₂ => by simp [beforeFirstChar]
  | x :: xs, l₂ => by
    intro h
    simp only [List.cons_append, beforeFirstChar, List.append_eq]
    rw [if_neg (by rintro rfl; exact h (by simp)),
      beforeFirstChar_append c xs l₂ (fun hm => h (by simp [hm]))]

theorem splitOnChar_ne_nil (c : Char) : ∀ (l : List Char), splitOnChar c l ≠ []
  | [] => by simp [splitOnChar]
  | x :: xs => by
    simp only [splitOnChar]
    split
    · simp
    · cases hsp : splitOnChar c xs <;> simp [hsp]

theorem splitOnChar_append (c : Char) :
    ∀ (l₁ l₂ : List Char), splitOnChar c (l₁ ++ c :: l₂) = splitOnChar c l₁ ++ splitOnChar c l₂
  | [], l₂ => by simp [splitOnChar]
  | x :: xs, l₂ => by
    simp only [List.cons_append, splitOnChar, List.append_eq]
    by_cases hx : x = c
    · rw [if_pos hx, if_pos hx, splitOnChar_append c xs l₂]
      simp
    · rw [if_neg hx, if_neg hx, splitOnChar_append c xs l₂]
      cases hsp : splitOnChar c xs with
      | nil => exact absurd hsp (splitOnChar_ne_nil c xs)
      | cons t ts => simp [hsp]

theorem splitOnChar_of_not_mem (c : Char) :
    ∀ (l : List Char), c ∉ l → splitOnChar c l = [l]
  | [] => by simp [splitOnChar]
  | x :: xs => by
    intro h
    simp only [splitOnChar]
    rw [if_neg (by rintro rfl; exact h (by simp)),
      splitOnChar_of_not_mem c xs (fun hm => h (by simp [hm]))]

theorem unquote_plus_ne_nil : ∀ (l : List Char), l ≠ [] → unquote_plus l ≠ [] := by
  intro l hl
  rw [unquote_plus.eq_def]
  split
  · exact absurd rfl hl
  · split <;> simp
  · simp

theorem parse_qsl_values_ne_nil (qs : List Char) :
    ∀ pr ∈ parse_qsl qs, pr.2 ≠ [] := by
  intro pr hpr
  obtain ⟨t, _, hparse⟩ := List.mem_filterMap.mp hpr
  unfold parseQsToken at hparse
  split at hparse
  · exact absurd hparse (by simp)
  · cases hv : afterFirstChar '=' t with
    | none => rw [hv] at hparse; exact absurd hparse (by simp)
    | some v =>
      simp only [hv] at hparse
      by_cases hve : v = []
      · rw [if_pos hve] at hparse; exact absurd hparse (by simp)
      · rw [if_neg hve] at hparse
        have hpr2 : pr = (unquote_plus (beforeFirstChar '=' t), unquote_plus v) :=
          (Option.some.inj hparse).symm
        rw [hpr2]
        exact unquote_plus_ne_nil v hve

theorem qsFirst_of_built_url (p f : String) (hf0 : f ≠ "")
    (hp1 : '#' ∉ p.data) (hf1 : '#' ∉ f.data) (hf2 : '&' ∉ f.data) :
    ∃ v, qsFirst ("fileName").data
        (urlparseQuery (DOWNLOAD_BASE_URL ++ "?path=" ++ p ++ "&fileName=" ++ f ++ "&type=2").data)
      = some v ∧ v ≠ [] := by
  have hdata : (DOWNLOAD_BASE_URL ++ "?path=" ++ p ++ "&fileName=" ++ f ++ "&type=2").data
      = DOWNLOAD_BASE_URL.data ++ '?' ::
          ("path=".data ++ p.data ++ '&' :: ("fileName=".data ++ f.data ++ '&' :: "type=2".data)) := by
    simp only [String.data_append]
    simp [List.append_assoc, List.cons_append]
  have hnohash : '#' ∉ DOWNLOAD_BASE_URL.data ++ '?' ::
      ("path=".data ++ p.data ++ '&' :: ("fileName=".data ++ f.data ++ '&' :: "type=2".data)) := by
    intro h
    rcases List.mem_append.mp h with hB | h
    · exact absurd hB (by decide)
    rcases List.mem_cons.mp h with h1 | h
    · exact absurd h1 (by decide)
    rcases List.mem_append.mp h with h2 | h
    · rcases List.mem_append.mp h2 with h3 | h3
      · exact absurd h3 (by decide)
      · exact hp1 h3
    rcases List.mem_cons.mp h with h4 | h
    · exact absurd h4 (by decide)
    rcases List.mem_append.mp h with h5 | h
    · rcases List.mem_append.mp h5 with h6 | h6
      · exact absurd h6 (by decide)
      · exact hf1 h6
    rcases List.mem_cons.mp h with h7 | h
    · exact absurd h7 (by decide)
    · exact absurd h (by decide)
  have hquery : urlparseQuery
      (DOWNLOAD_BASE_URL ++ "?path=" ++ p ++ "&fileName=" ++ f ++ "&type=2").data
      = "path=".data ++ p.data ++ '&' :: ("fileName=".data ++ f.data ++ '&' :: "type=2".data) := by
    rw [hdata]
    unfold urlparseQuery
    rw [beforeFirstChar_of_not_mem '#' _ hnohash,
      afterFirstChar_append '?' _ _ (by decide : ('?' : Char) ∉ DOWNLOAD_BASE_URL.data)]
  have hM : ('&' : Char) ∉ "fileName=".data ++ f.data := by
    intro hm
    rcases List.mem_append.mp hm with h1 | h1
    · exact absurd h1 (by decide)
    · exact hf2 h1
  have hsplit : splitOnChar '&'
      ("path=".data ++ p.data ++ '&' :: ("fileName=".data ++ f.data ++ '&' :: "type=2".data))
      = splitOnChar '&' ("path=".data ++ p.data)
        ++ (("fileName=".data ++ f.data) :: ["type=2".data]) := by
    have hassoc : "path=".data ++ p.data ++ '&' :: ("fileName=".data ++ f.data ++ '&' :: "type=2".data)
        = ("path=".data ++ p.data) ++ '&' :: (("fileName=".data ++ f.data) ++ '&' :: "type=2".data) := by
      simp [List.append_assoc]
    rw [hassoc, splitOnChar_append '&' _ _, splitOnChar_append '&' _ _,
      splitOnChar_of_not_mem '&' _ hM,
      (by decide : splitOnChar '&' "type=2".data = ["type=2".data])]
    simp
  have hfd : f.data ≠ [] := fun h => hf0 (String.ext (h.trans rfl))
  have hM0 : "fileName=".data ++ f.data ≠ [] := by
    intro h
    exact absurd (List.append_eq_nil.mp h).1 (by decide)
  have hMeq : ("fileName=".data ++ f.data) = "fileName".data ++ '=' :: f.data := rfl
  have hMparse : parseQsToken ("fileName=".data ++ f.data)
      = some ("fileName".data, unquote_plus f.data) := by
    unfold parseQsToken
    rw [if_neg hM0, hMeq]
    simp only [afterFirstChar_append '=' _ _ (by decide : ('=' : Char) ∉ "fileName".data)]
    rw [if_neg hfd, beforeFirstChar_append '=' _ _ (by decide : ('=' : Char) ∉ "fileName".data)]
    rw [(by decide : unquote_plus ("fileName").data = ("fileName").data)]
  have hmem : ("fileName".data, unquote_plus f.data) ∈ parse_qsl
      (urlparseQuery (DOWNLOAD_BASE_URL ++ "?path=" ++ p ++ "&fileName=" ++ f ++ "&type=2").data) := by
    rw [hquery]
    unfold parse_qsl
    rw [hsplit, List.filterMap_append]
    refine List.mem_append.mpr (Or.inr ?_)
    simp only [List.filterMap_cons, hMparse]
    simp
  have hfind : ((parse_qsl (urlparseQuery
      (DOWNLOAD_BASE_URL ++ "?path=" ++ p ++ "&fileName=" ++ f ++ "&type=2").data)).find?
        (fun pr => pr.1 == "fileName".data)).isSome := by
    rw [List.find?_isSome]
    exact ⟨_, hmem, by simp⟩
  obtain ⟨pr, hpr⟩ := Option.isSome_iff_exists.mp hfind
  refine ⟨pr.2, ?_, ?_⟩
  · unfold qsFirst
    rw [hpr]
    rfl
  · exact parse_qsl_values_ne_nil _ pr (List.mem_of_find?_eq_some hpr)

/-! ### C9 — the `qs["fileName"][0]` fallback -/

/-- C9 (counterexample): the claim says the fallback lookup can never fail
for a job produced by `create_download_jobs`.  The record with storage path
`a#b` and file name `f.pdf` passes validation and yields a job, but the `#`
lands in the constructed URL, `urlparse` treats everything after it as the
fragment, the query retains only `path=a`, the parsed query has no
`fileName` key, and the lookup raises `KeyError` — `download_file` dies
before its first attempt. -/
theorem C9_counterexample :
    create_download_jobs [hashCase] = [hashJob]
    ∧ original_name hashJob = none
    ∧ download_file hashJob 1 1 (fun _ => some 7) = none :=
  ⟨by decide, by decide, by decide⟩

/-- C9 (amended): for every job built from a record whose path and file name
contain no `#` and whose file name contains no `&`, parsing the job's URL
query yields a non-empty `fileName` entry, so `original_name` (and hence
`download_file`) cannot fail with `KeyError`/`IndexError` even when the
record lacks `DocName`. -/
theorem C9_fileName_lookup (records : List Case) (j : Job)
    (hj : j ∈ create_download_jobs records)
    (hp1 : '#' ∉ (j.case.PathForWeb.getD ("")).data)
    (hf1 : '#' ∉ (j.case.FileName.getD ("")).data)
    (hf2 : '&' ∉ (j.case.FileName.getD ("")).data) :
    (∃ v, qsFirst ("fileName").data (urlparseQuery j.url.data) = some v ∧ v ≠ [])
    ∧ original_name j ≠ none
    ∧ ∀ (i t : Nat) (o : Nat → Option Nat), download_file j i t o ≠ none := by
  obtain ⟨p, f, hp, hf, hp0, hf0, hurl⟩ := mem_create_download_jobs records j hj
  rw [hp] at hp1
  rw [hf] at hf1 hf2
  simp only [Option.getD_some] at hp1 hf1 hf2
  have hqs : ∃ v, qsFirst ("fileName").data (urlparseQuery j.url.data) = some v ∧ v ≠ [] := by
    rw [hurl]
    exact qsFirst_of_built_url p f hf0 hp1 hf1 hf2
  obtain ⟨v, hv, hv0⟩ := hqs
  have horig : original_name j ≠ none := by
    unfold original_name
    cases hd : j.case.DocName with
    | none => simp only [hd, hv]; simp
    | some d =>
      by_cases hde : d ≠ ""
      · simp only [hd, if_pos hde]; simp
      · simp only [hd, if_neg hde, hv]; simp
  refine ⟨⟨v, hv, hv0⟩, horig, ?_⟩
  intro i t o hnone
  exact horig ((download_file_none_iff j i t o).mp hnone)

/-- C9 (witness): the amended theorem applied to the sample job, whose path
and file name contain neither `#` nor `&`. -/
theorem C9_fileName_lookup_witness : original_name sampleJob ≠ none :=
  (C9_fileName_lookup [sampleCase] sampleJob (by decide) (by decide) (by decide) (by decide)).2.1

/-! ### Lemmas about `parse_dotnet_date` -/

theorem dropWhile_all {α : Type} {p : α → Bool} :
    ∀ (l₁ l₂ : List α), (∀ x ∈ l₁, p x = true) →
      List.dropWhile p (l₁ ++ l₂) = List.dropWhile p l₂
  | [], _, _ => rfl
  | x :: xs, l₂, h => by
    simp only [List.cons_append, List.dropWhile_cons, h x (by simp), if_true]
    exact dropWhile_all xs l₂ (fun y hy => h y (by simp [hy]))

theorem dropWhile_none {α : Type} {p : α → Bool} :
    ∀ (l : List α), (∀ x ∈ l, p x = false) → List.dropWhile p l = l
  | [], _ => rfl
  | x :: xs, h => by simp [List.dropWhile_cons, h x (by simp)]

theorem digit_not_strip (c : Char) (h : c.isDigit = true) :
    dotnetStripChars.contains c = false := by
  by_contra hc
  rw [Bool.not_eq_false, List.contains_eq_any_beq] at hc
  obtain ⟨x, hx, hbeq⟩ := List.any_eq_true.mp hc
  rw [eq_of_beq hbeq] at h
  simp only [dotnetStripChars, List.mem_cons, List.not_mem_nil, or_false] at hx
  rcases hx with rfl | rfl | rfl | rfl | rfl | rfl | rfl <;> exact absurd h (by decide)

theorem digit_not_space (c : Char) (h : c.isDigit = true) : isPySpace c = false := by
  by_contra hc
  rw [Bool.not_eq_false] at hc
  simp only [isPySpace, Bool.or_eq_true, decide_eq_true_eq] at hc
  rcases hc with ((((hc | hc) | hc) | hc) | hc) | hc <;>
    (rw [hc] at h; exact absurd h (by decide))

theorem pyStrip_dotnet (l : List Char) (hl : l ≠ []) (hd : ∀ c ∈ l, c.isDigit = true) :
    pyStrip dotnetStripChars ("/Date(".data ++ l ++ ")/".data) = l := by
  have hnd : ∀ c ∈ l, dotnetStripChars.contains c = false :=
    fun c hc => digit_not_strip c (hd c hc)
  unfold pyStrip
  rw [List.append_assoc, dropWhile_all ("/Date(").data (l ++ ")/".data) (by decide)]
  cases l with
  | nil => exact absurd rfl hl
  | cons h0 t =>
    rw [List.cons_append, List.dropWhile_cons, hnd h0 (by simp)]
    simp only [Bool.false_eq_true, if_false]
    have hrev : (h0 :: (t ++ ")/".data)).reverse = ")/".data.reverse ++ (t.reverse ++ [h0]) := by
      simp [List.append_assoc]
    rw [hrev, dropWhile_all _ _ (by decide : ∀ x ∈ (")/".data).reverse,
        (fun c => dotnetStripChars.contains c) x = true),
      dropWhile_none _ ?hall]
    case hall =>
      intro x hx
      apply hnd
      rcases List.mem_append.mp hx with hx1 | hx1
      · exact List.mem_cons_of_mem _ (List.mem_reverse.mp hx1)
      · simp only [List.mem_singleton] at hx1
        simp [hx1]
    simp

theorem digitsGo_digits :
    ∀ (l : List Char) (acc : Nat), (∀ c ∈ l, c.isDigit = true) →
      digitsGo acc l = some (natOfDigitsAcc acc l)
  | [], acc, _ => rfl
  | c :: rest, acc, h => by
    unfold digitsGo
    rw [if_pos (h c (by simp))]
    exact digitsGo_digits rest _ (fun y hy => h y (by simp [hy]))

theorem pyInt_digits (l : List Char) (hl : l ≠ []) (hd : ∀ c ∈ l, c.isDigit = true) :
    pyInt l = some (Int.ofNat (natOfDigitsAcc 0 l)) := by
  have hs1 : l.dropWhile isPySpace = l :=
    dropWhile_none l (fun c hc => digit_not_space c (hd c hc))
  have hs2 : l.reverse.dropWhile isPySpace = l.reverse :=
    dropWhile_none l.reverse (fun c hc => digit_not_space c (hd c (by simpa using hc)))
  unfold pyInt
  simp only [hs1, hs2, List.reverse_reverse]
  cases l with
  | nil => exact absurd rfl hl
  | cons c rest =>
    have hc : c.isDigit = true := hd c (by simp)
    have hplus : ¬c = '+' := by rintro rfl; exact absurd hc (by decide)
    have hminus : ¬c = '-' := by rintro rfl; exact absurd hc (by decide)
    show (if c = '+' then Option.map Int.ofNat (digitsValue rest)
      else if c = '-' then Option.map (fun n => -Int.ofNat n) (digitsValue rest)
      else Option.map Int.ofNat (digitsValue (c :: rest)))
      = some (Int.ofNat (natOfDigitsAcc 0 (c :: rest)))
    rw [if_neg hplus, if_neg hminus]
    show Option.map Int.ofNat
        (if c.isDigit = true then digitsGo (c.toNat - '0'.toNat) rest else none)
      = some (Int.ofNat (natOfDigitsAcc 0 (c :: rest)))
    rw [if_pos hc, digitsGo_digits rest _ (fun y hy => hd y (by simp [hy]))]
    simp [natOfDigitsAcc]

/-! ### C10 — totality and behaviour of `parse_dotnet_date` -/

/-- C10 (counterexample): the claim says every well-formed
`/Date(<milliseconds>)/` string yields the corresponding date, but a
timestamp beyond `datetime`'s year-9999 range makes `utcfromtimestamp`
raise, the handler catches it, and `None` is returned. -/
theorem C10_counterexample :
    parse_dotnet_date (some ("/Date(1000000000000000000)/")) = none := by decide

/-- C10 (amended): `parse_dotnet_date` is total — `None` and the empty
string give `None`; a string whose stripped content `int` cannot parse
gives `None`; a well-formed `/Date(<digits>)/` string gives the
corresponding `YYYY-MM-DD` date when the timestamp lies within `datetime`'s
supported range and `None` beyond it; and the conversion on two concrete
inputs. -/
theorem C10_parse_dotnet_date :
    parse_dotnet_date none = none
    ∧ parse_dotnet_date (some ("")) = none
    ∧ (∀ s : String, s ≠ "" → pyInt (pyStrip dotnetStripChars s.data) = none →
        parse_dotnet_date (some s) = none)
    ∧ (∀ l : List Char, l ≠ [] → (∀ c ∈ l, c.isDigit = true) →
        ((Int.ofNat (natOfDigitsAcc 0 l) ≤ 253402300799999 →
          parse_dotnet_date (some ("/Date(" ++ String.mk l ++ ")/")) =
            some (isoDateOfMs (Int.ofNat (natOfDigitsAcc 0 l))))
        ∧ (253402300799999 < Int.ofNat (natOfDigitsAcc 0 l) →
          parse_dotnet_date (some ("/Date(" ++ String.mk l ++ ")/")) = none)))
    ∧ parse_dotnet_date (some ("/Date(1696118400000)/")) = some ("2023-10-01") := by
  refine ⟨rfl, rfl, ?_, ?_, by decide⟩
  · intro s hs hint
    show (if s = "" then none
      else match pyInt (pyStrip dotnetStripChars s.data) with
        | none => none
        | some ms => utcDateOfMs ms) = none
    rw [if_neg hs, hint]
  · intro l hl hd
    have hne : ("/Date(" ++ String.mk l ++ ")/") ≠ "" := by
      intro h
      have hd0 : ("/Date(" ++ String.mk l ++ ")/").data = [] := by rw [h]
      rw [String.data_append, String.data_append] at hd0
      simp at hd0
    have hdata : ("/Date(" ++ String.mk l ++ ")/").data = "/Date(".data ++ l ++ ")/".data := by
      rw [String.data_append, String.data_append]
    have hone : parse_dotnet_date (some ("/Date(" ++ String.mk l ++ ")/")) =
        utcDateOfMs (Int.ofNat (natOfDigitsAcc 0 l)) := by
      show (if ("/Date(" ++ String.mk l ++ ")/") = "" then none
        else match pyInt (pyStrip dotnetStripChars ("/Date(" ++ String.mk l ++ ")/").data) with
          | none => none
          | some ms => utcDateOfMs ms) = utcDateOfMs (Int.ofNat (natOfDigitsAcc 0 l))
      rw [if_neg hne, hdata, pyStrip_dotnet l hl hd, pyInt_digits l hl hd]
    have hnn : 0 ≤ Int.ofNat (natOfDigitsAcc 0 l) := Int.ofNat_nonneg _
    have hfd : Int.fdiv (Int.ofNat (natOfDigitsAcc 0 l)) 86400000 =
        Int.ofNat (natOfDigitsAcc 0 l) / 86400000 :=
      Int.fdiv_eq_ediv _ (by omega)
    constructor
    · intro hle
      rw [hone]
      unfold utcDateOfMs
      rw [if_neg ?hc]
      case hc =>
        rw [hfd]
        simp only [minDay, maxDay]
        omega
    · intro hgt
      rw [hone]
      unfold utcDateOfMs
      rw [if_pos ?hc2]
      case hc2 =>
        rw [hfd]
        simp only [minDay, maxDay]
        omega

/-- C10 (witness): the amended theorem applied to an unparsable string and
to the well-formed `/Date(0)/`. -/
theorem C10_parse_dotnet_date_witness :
    parse_dotnet_date (some ("abc")) = none
    ∧ parse_dotnet_date (some ("/Date(" ++ String.mk ['0'] ++ ")/")) =
        some (isoDateOfMs (Int.ofNat (natOfDigitsAcc 0 ['0']))) :=
  ⟨C10_parse_dotnet_date.2.2.1 ("abc") (by decide) (by decide),
   (C10_parse_dotnet_date.2.2.2.1 ['0'] (by decide) (by decide)).1 (by decide)⟩

end SupremeCourtDownloader
